import Mathlib

/-!
# Verification of the AppCache-to-ServiceWorker shim

A shallow embedding of the manifest lifecycle and fetch-resolution engine of
the `appcache2serviceworker` repository.

JavaScript strings are modelled as `List Char` (`Str`), so that prefix and
substring tests become `List.IsPrefix` / `List.isInfixOf`.  IndexedDB object
stores are modelled as association lists whose list order stands for the
store's enumeration order (the order `getAll` / `getAllKeys` return entries
in).  Promise outcomes are modelled explicitly: a fulfilled value, a
fulfillment with `undefined`, or a rejection.

Embedded source files:
* `src/src/legacy-appcache-behavior-import.js` — the worker agent
  (`longestMatchingPrefix`, `fetchWithFallback`, `getParsedManifest`,
  `saveClientIdAndHash`, `appCacheBehaviorForEvent`,
  `getHashesOfOlderVersions`, `cleanupClientIdAndHash`, `cleanupOldCaches`,
  `legacyAppCacheBehavior`).
* `src/unnamed/part_000` — the page agent variant with the conditioning
  fetches (`addToCache`, `handlePossibleManifestUpdate`,
  `performManifestUpdate`).
-/

/-- JavaScript strings, modelled as lists of characters. -/
abbrev Str := List Char

/-- Shorthand for turning a Lean string literal into the `Str` model. -/
def str (s : String) : Str := s.toList

/-- The literal `'*'` token kept verbatim inside a manifest's NETWORK
section. -/
def starToken : Str := str "*"

/-- The header value `'true'` of `X-Use-Fetch`. -/
def trueStr : Str := str "true"

/-- The `'no-store'` directive searched for inside `Cache-Control`. -/
def noStoreStr : Str := str "no-store"

/-- Lookup in a keyed store modelled as an association list: the value of the
first entry carrying the key, as `store.get(key)` for an IndexedDB store. -/
def lookupStore {β : Type} : List (Str × β) → Str → Option β
  | [], _ => none
  | (k', v) :: rest, k => if k' = k then some v else lookupStore rest k

/-- `store.put(value, key)` on a keyed store: replace the entry carrying the
key if present, otherwise append a fresh entry. -/
def putStore {β : Type} : List (Str × β) → Str → β → List (Str × β)
  | [], k, v => [(k, v)]
  | (k', v') :: rest, k, v =>
      if k' = k then (k, v) :: rest else (k', v') :: putStore rest k v

/-- The output of the external `parse-appcache-manifest` library after
`makeManifestUrlsAbsolute`: CACHE and NETWORK as ordered URL sequences and
FALLBACK as a key-to-value mapping, modelled as an association list in key
enumeration (insertion) order. -/
structure ParsedManifest where
  cache : List Str
  network : List Str
  fallback : List (Str × Str)
deriving DecidableEq, Repr

/-- One entry of a manifest's version history, as the worker of
`legacy-appcache-behavior-import.js` reads it from
`MANIFEST_URL_TO_CONTENTS`. -/
structure ManifestVersion where
  hash : Str
  text : Str
  parsed : ParsedManifest
deriving DecidableEq, Repr

/-- The value stored under a client URL in `PATH_TO_MANIFEST`, as the worker
reads it (`manifestForClient.url` / `manifestForClient.hash`). -/
structure ManifestBinding where
  url : Str
  hash : Str
deriving DecidableEq, Repr

/-- The persistent stores the worker consults.  List order models IndexedDB
enumeration order. -/
structure WorkerState where
  pathToManifest : List (Str × ManifestBinding)
  manifestUrlToContents : List (Str × List ManifestVersion)
  clientIdToHash : List (Str × Str)
deriving DecidableEq, Repr

/-- A fetch event, keeping the fields the worker reads: the request URL, the
`X-Use-Fetch` header value (`none` when the header is absent), the clientId
(`none` when empty or absent) and the request referrer (`[]` models the empty
referrer string). -/
structure FetchEvent where
  requestUrl : Str
  xUseFetch : Option Str
  clientId : Option Str
  referrer : Str
deriving DecidableEq, Repr

/-- The platform surroundings of the worker: whether
`global.clients && global.clients.get` is available, and what URL
`clients.get(id).url` resolves to. -/
structure WorkerEnv where
  clientsGetSupported : Bool
  clientUrlById : Str → Str

/-- `getClientUrlForEvent` of `legacy-appcache-behavior-import.js`: prefer
clientId-based client enumeration when supported, else the referrer, else the
request URL itself. -/
def getClientUrlForEvent (env : WorkerEnv) (event : FetchEvent) : Str :=
  match event.clientId with
  | some cid =>
      if env.clientsGetSupported then env.clientUrlById cid
      else if event.referrer ≠ [] then event.referrer else event.requestUrl
  | none =>
      if event.referrer ≠ [] then event.referrer else event.requestUrl

/-- `longestMatchingPrefix` of `legacy-appcache-behavior-import.js`:
filter the candidates down to those that are string prefixes of `fullUrl`
(`fullUrl.startsWith(urlPrefix)`), then reduce with
`longestSoFar.length >= current.length ? longestSoFar : current`, starting
from the empty string. -/
def longestMatchingPrefix (urlPrefixes : List Str) (fullUrl : Str) : Str :=
  (urlPrefixes.filter (fun urlPrefix => decide (urlPrefix <+: fullUrl))).foldl
    (fun longestSoFar current =>
      if longestSoFar.length ≥ current.length then longestSoFar else current)
    []

/-- A response, keeping the fields the page agent's `addToCache` examines:
the HTTP status and the `Cache-Control` header value (`none` when the header
is absent, so that `headers.get('Cache-Control')` is `null`). -/
structure Response' where
  status : Nat
  cacheControl : Option Str
  body : Str
deriving DecidableEq, Repr

/-- The `Response.ok` predicate: status in the 2xx range. -/
def response_ok (r : Response') : Bool :=
  200 ≤ r.status && r.status ≤ 299

/-- The outcome of `fetchWithFallback`: a fulfilled `Response`, a fulfillment
with `undefined` (a `cache.match` miss), or a rejection carrying the fetch
error. -/
inductive FwfResult where
  | fulfilled (r : Response')
  | fulfilledUndefined
  | rejected (err : Str)
deriving DecidableEq, Repr

/-- `fetchWithFallback(request, fallbackUrl, cacheName)` of
`legacy-appcache-behavior-import.js`.  The live `fetch(request)` outcome is
`liveFetch` (`Except.error` models a rejection); `cacheContents` models the
entries of the cache named `cacheName`.  On fetch rejection the code runs
`caches.open(cacheName).then(cache => cache.match(fallbackUrl))`, whose miss
fulfills with `undefined`. -/
def fetchWithFallback (liveFetch : Except Str Response')
    (cacheContents : List (Str × Response')) (fallbackUrl : Str) : FwfResult :=
  match liveFetch with
  | Except.ok r => FwfResult.fulfilled r
  | Except.error _ =>
      match lookupStore cacheContents fallbackUrl with
      | some r => FwfResult.fulfilled r
      | none => FwfResult.fulfilledUndefined

/-- `getParsedManifest(db, manifestUrl, manifestHash)` of
`legacy-appcache-behavior-import.js`: read the version list stored under
`manifestUrl` (defaulting to `[]`), then reduce: keep an already-found
result, otherwise take `current.parsed` when `current.hash` matches. -/
def getParsedManifest (contents : List (Str × List ManifestVersion))
    (manifestUrl manifestHash : Str) : Option ParsedManifest :=
  let versions := (lookupStore contents manifestUrl).getD []
  versions.foldl
    (fun result current =>
      match result with
      | some r => some r
      | none => if current.hash = manifestHash then some current.parsed else none)
    none

/-- `saveClientIdAndHash(db, clientId, hash)`: when the event carries a
clientId, `put` the hash under it in `CLIENT_ID_TO_HASH`; otherwise leave the
store alone. -/
def saveClientIdAndHash (clientIdToHash : List (Str × Str))
    (clientId : Option Str) (hash : Str) : List (Str × Str) :=
  match clientId with
  | some cid => putStore clientIdToHash cid hash
  | none => clientIdToHash

/-- What the Rule Engine resolves a fetch event to.  `fetchRequest` stands
for `fetch(event.request)` (used by the `X-Use-Fetch` early exit, the NETWORK
branch and the no-match branch of the cross-manifest search alike);
`cacheMatch` for `caches.open(name).then(c => c.match(requestUrl))`;
`fallbackFetch` for delegating to `fetchWithFallback`; `errorSentinel` for
`Response.error()`; `reject` for the promise chain rejecting with a thrown
`TypeError`; `undefinedResult` for the chain fulfilling with `undefined`
(the falsy-`clientUrl` path). -/
inductive Decision where
  | fetchRequest
  | cacheMatch (cacheName : Str)
  | fallbackFetch (fallbackUrl cacheName : Str)
  | errorSentinel
  | reject
  | undefinedResult
deriving DecidableEq, Repr

/-- A placeholder `ManifestVersion` used only to totalise
`manifestVersions[manifestVersions.length - 1]`; every use is guarded by a
nonemptiness check mirroring where the JavaScript would throw. -/
def dummyVersion : ManifestVersion :=
  { hash := [], text := [], parsed := { cache := [], network := [], fallback := [] } }

/-- `manifestVersions[manifestVersions.length - 1]`: the current (last)
version of a history. -/
def currentVersion (versions : List ManifestVersion) : ManifestVersion :=
  versions.getLast?.getD dummyVersion

/-- The indexed reduce of the cross-manifest search:
`reduce((soFar, current, i) => current.length >= soFar.prefix.length ?
{prefix: current, index: i} : soFar, {prefix: '', index: 0})`. -/
def pickLongest (longestForEach : List Str) : Str × Nat :=
  longestForEach.enum.foldl
    (fun soFar ic =>
      if ic.2.length ≥ soFar.1.length then (ic.2, ic.1) else soFar)
    ([], 0)

/-- The no-binding path of `appCacheBehaviorForEvent` (Case B): load all
manifest histories in store enumeration order, take each history's current
(last) version, compute its longest matching fallback prefix for the request
URL, pick the longest overall with `>=` (so a later manifest wins ties), and
either delegate to `fetchWithFallback` with the winner's fallback value and
hash or fall back to a plain `fetch(request)`.  Reading `parsed` of the last
element of an empty history throws in JavaScript, which rejects the chain. -/
def crossManifestFallback (contents : List (Str × List ManifestVersion))
    (requestUrl : Str) : Decision :=
  let manifests := contents.map Prod.snd
  if manifests.any (fun versions => versions.isEmpty) then Decision.reject
  else
    let longestForEach := manifests.map (fun manifestVersions =>
      longestMatchingPrefix
        ((currentVersion manifestVersions).parsed.fallback.map Prod.fst)
        requestUrl)
    let longest := pickLongest longestForEach
    if longest.1 ≠ [] then
      let winningVersion := currentVersion (manifests.getD longest.2 [])
      Decision.fallbackFetch
        ((lookupStore winningVersion.parsed.fallback longest.1).getD [])
        winningVersion.hash
    else Decision.fetchRequest

/-- `appCacheBehaviorForEvent(event)` of
`legacy-appcache-behavior-import.js`, returning the resolution decision
together with the possibly-updated `CLIENT_ID_TO_HASH` store.  The stages
mirror the source: the `X-Use-Fetch: true` early exit; client URL
resolution; the `PATH_TO_MANIFEST` lookup; with a binding, the
CACHE-or-client-URL test, then the FALLBACK longest-prefix test, then the
NETWORK membership / `*` test, then `Response.error()`; a `null` parsed
manifest makes `parsedManifest.cache` throw, rejecting the chain; without a
binding, the cross-manifest fallback search. -/
def appCacheBehaviorForEvent (env : WorkerEnv) (state : WorkerState)
    (event : FetchEvent) : Decision × List (Str × Str) :=
  if event.xUseFetch = some trueStr then
    (Decision.fetchRequest, state.clientIdToHash)
  else
    let requestUrl := event.requestUrl
    let clientUrl := getClientUrlForEvent env event
    if clientUrl = [] then (Decision.undefinedResult, state.clientIdToHash)
    else
      match lookupStore state.pathToManifest clientUrl with
      | some manifestForClient =>
          let newClientIdToHash := saveClientIdAndHash state.clientIdToHash
            event.clientId manifestForClient.hash
          match getParsedManifest state.manifestUrlToContents
              manifestForClient.url manifestForClient.hash with
          | none => (Decision.reject, newClientIdToHash)
          | some parsedManifest =>
              if requestUrl ∈ parsedManifest.cache ∨ requestUrl = clientUrl then
                (Decision.cacheMatch manifestForClient.hash, newClientIdToHash)
              else
                let fallbackKey := longestMatchingPrefix
                  (parsedManifest.fallback.map Prod.fst) requestUrl
                if fallbackKey ≠ [] then
                  (Decision.fallbackFetch
                    ((lookupStore parsedManifest.fallback fallbackKey).getD [])
                    manifestForClient.hash, newClientIdToHash)
                else if requestUrl ∈ parsedManifest.network ∨
                    starToken ∈ parsedManifest.network then
                  (Decision.fetchRequest, newClientIdToHash)
                else (Decision.errorSentinel, newClientIdToHash)
      | none =>
          (crossManifestFallback state.manifestUrlToContents requestUrl,
            state.clientIdToHash)

/-- `legacyAppCacheBehavior` of `legacy-appcache-behavior-import.js`: the
top-level wrapper whose `.catch` converts any rejection of
`appCacheBehaviorForEvent` into a plain `fetch(event.request)`. -/
def legacyAppCacheBehavior (env : WorkerEnv) (state : WorkerState)
    (event : FetchEvent) : Decision :=
  match (appCacheBehaviorForEvent env state event).1 with
  | Decision.reject => Decision.fetchRequest
  | d => d

/-- `getHashesOfOlderVersions` of `legacy-appcache-behavior-import.js`: for
every stored history, `versions.slice(0, -1)` (everything but the current
version) mapped to hashes, concatenated with
`reduce((prev, curr) => prev.concat(curr), [])`. -/
def getHashesOfOlderVersions
    (contents : List (Str × List ManifestVersion)) : List Str :=
  ((contents.map Prod.snd).map (fun versions =>
      versions.dropLast.map (fun version => version.hash))).foldl
    (fun prev curr => prev ++ curr) []

/-- `cleanupClientIdAndHash(idsOfActiveClients)` of
`legacy-appcache-behavior-import.js`: filter the known clientIds down to the
inactive ones, delete each of their entries from `CLIENT_ID_TO_HASH`, and
fulfill with the hashes those entries carried.  Returns the hash list
together with the store as it stands after the deletions. -/
def cleanupClientIdAndHash (clientIdToHash : List (Str × Str))
    (idsOfActiveClients : List Str) : List Str × List (Str × Str) :=
  let idsOfInactiveClients := (clientIdToHash.map Prod.fst).filter
    (fun id => ¬ idsOfActiveClients.contains id)
  (idsOfInactiveClients.map (fun id => (lookupStore clientIdToHash id).getD []),
   clientIdToHash.filter (fun entry => idsOfActiveClients.contains entry.1))

/-- `cleanupOldCaches()` of `legacy-appcache-behavior-import.js`, with the
live client ids from `clients.matchAll()` passed in.  Returns the names of
the response caches the sweep deletes (`idsToDelete`) together with the
`CLIENT_ID_TO_HASH` store after the stale bindings are removed. -/
def cleanupOldCaches (state : WorkerState)
    (idsOfActiveClients : List Str) : List Str × List (Str × Str) :=
  let cleaned := cleanupClientIdAndHash state.clientIdToHash idsOfActiveClients
  let hashesNotInUse := cleaned.1
  let idsToDelete := (getHashesOfOlderVersions state.manifestUrlToContents).filter
    (fun hashOfOlderVersion => hashesNotInUse.contains hashOfOlderVersion)
  (idsToDelete, cleaned.2)

/-- Does `cacheControl.indexOf('no-store') !== -1` hold, i.e. is
`'no-store'` an infix of the header value? -/
def containsNoStore (cacheControl : Str) : Bool :=
  decide (noStoreStr <:+: cacheControl)

/-- The single update `addToCache` performs on the cache for one URL. -/
inductive CacheOp where
  | delete
  | put (r : Response')
  | noop
deriving DecidableEq, Repr

/-- The response handler inside `addToCache` of `src/unnamed/part_000`, run
on a fulfilled conditioning fetch.  The `||` chain short-circuits: for a 404
or 410 the header is never read; otherwise
`response.headers.get('Cache-Control')` is `null` when the header is absent
and `.indexOf` on it throws a `TypeError` (`Except.error`); otherwise the
substring test decides deletion, then `response.ok` decides storing, and any
remaining status does nothing. -/
def addToCacheResponseHandler (r : Response') : Except Unit CacheOp :=
  if r.status = 404 ∨ r.status = 410 then Except.ok CacheOp.delete
  else
    match r.cacheControl with
    | none => Except.error ()
    | some cacheControl =>
        if containsNoStore cacheControl then Except.ok CacheOp.delete
        else if response_ok r then Except.ok (CacheOp.put r)
        else Except.ok CacheOp.noop

/-- One URL's complete chain inside `addToCache`: a rejected conditioning
fetch, or a handler exception, is swallowed by the per-URL `.catch`, leaving
the cache untouched for that URL. -/
def addToCachePerUrl (fetchOutcome : Except Unit Response') : CacheOp :=
  match fetchOutcome with
  | Except.error _ => CacheOp.noop
  | Except.ok r =>
      match addToCacheResponseHandler r with
      | Except.error _ => CacheOp.noop
      | Except.ok op => op

/-- Apply one URL's cache operation: `cache.delete(url)` removes any entry
for the URL, `cache.put(url, response)` overwrites it, and doing nothing
keeps the old entry. -/
def applyCacheOp (cache : List (Str × Response')) (url : Str) :
    CacheOp → List (Str × Response')
  | CacheOp.delete => cache.filter (fun entry => ¬ entry.1 = url)
  | CacheOp.put r => putStore cache url r
  | CacheOp.noop => cache

/-- `addToCache(urls)` of `src/unnamed/part_000` over the cache it opens:
every URL is conditioned by its own fetch (`fetchEnv` gives each URL's
outcome; `Except.error` models a rejection) and handled independently; the
per-URL `.catch` means no URL's failure stops the rest. -/
def addToCache (fetchEnv : Str → Except Unit Response') (urls : List Str)
    (cache : List (Str × Response')) : List (Str × Response') :=
  urls.foldl (fun c url => applyCacheOp c url (addToCachePerUrl (fetchEnv url))) cache

/-- The value `performManifestUpdate` of `src/unnamed/part_000` stores under
the manifest URL in `MANIFEST_URL_TO_CONTENTS`: a single
`{text, parsed}` record (this page-agent variant computes no hash and keeps
no version history). -/
structure StoredManifest where
  text : Str
  parsed : ParsedManifest
deriving DecidableEq, Repr

/-- `performManifestUpdate(db, manifestUrl, manifestText)` of
`src/unnamed/part_000`: parse the text (the external parser composed with
`makeManifestUrlsAbsolute` is the `parse` parameter), `put` the
`{text, parsed}` record under the manifest URL — overwriting whatever was
there — and hand `parsed.cache.concat(fallbackUrls)` to `addToCache`.
Returns the updated store together with the URL list given to
`addToCache`. -/
def performManifestUpdate (parse : Str → ParsedManifest)
    (store : List (Str × StoredManifest)) (manifestUrl manifestText : Str) :
    List (Str × StoredManifest) × List Str :=
  let parsedManifest := parse manifestText
  let fallbackUrls := parsedManifest.fallback.map Prod.snd
  (putStore store manifestUrl { text := manifestText, parsed := parsedManifest },
   parsedManifest.cache ++ fallbackUrls)

/-- `handlePossibleManifestUpdate(db, manifestUrl)` of
`src/unnamed/part_000`, with the freshly fetched manifest text passed in:
compare it with the stored record's `text` (the empty string when no record
exists) and run `performManifestUpdate` only when they differ. -/
def handlePossibleManifestUpdate (parse : Str → ParsedManifest)
    (store : List (Str × StoredManifest)) (manifestUrl fetchedText : Str) :
    List (Str × StoredManifest) :=
  let storedText := ((lookupStore store manifestUrl).map
    (fun entry => entry.text)).getD []
  if fetchedText ≠ storedText then
    (performManifestUpdate parse store manifestUrl fetchedText).1
  else store

/-- Sequential installation: run `handlePossibleManifestUpdate` on each text
in turn, as successive page loads would. -/
def installSequentially (parse : Str → ParsedManifest)
    (store : List (Str × StoredManifest)) (manifestUrl : Str)
    (texts : List Str) : List (Str × StoredManifest) :=
  texts.foldl
    (fun s text => handlePossibleManifestUpdate parse s manifestUrl text) store

/-! ## Lemmas about `longestMatchingPrefix` -/

/-- The reduce inside `longestMatchingPrefix`, characterised over an
arbitrary accumulator: the result is the accumulator or a list element, and
its length dominates both. -/
theorem foldl_longest_spec (L : List Str) (a : Str) :
    (L.foldl (fun longestSoFar current =>
        if longestSoFar.length ≥ current.length then longestSoFar else current) a = a ∨
      L.foldl (fun longestSoFar current =>
        if longestSoFar.length ≥ current.length then longestSoFar else current) a ∈ L) ∧
    a.length ≤ (L.foldl (fun longestSoFar current =>
      if longestSoFar.length ≥ current.length then longestSoFar else current) a).length ∧
    ∀ x ∈ L, x.length ≤ (L.foldl (fun longestSoFar current =>
      if longestSoFar.length ≥ current.length then longestSoFar else current) a).length := by
  induction L generalizing a with
  | nil => simp
  | cons x xs ih =>
    simp only [List.foldl_cons]
    by_cases h : a.length ≥ x.length
    · simp only [if_pos h]
      obtain ⟨hmem, hle, hall⟩ := ih a
      refine ⟨?_, hle, ?_⟩
      · rcases hmem with h' | h'
        · exact Or.inl h'
        · exact Or.inr (List.mem_cons_of_mem _ h')
      · intro y hy
        rcases List.mem_cons.mp hy with rfl | hy'
        · exact le_trans h hle
        · exact hall y hy'
    · simp only [if_neg h]
      obtain ⟨hmem, hle, hall⟩ := ih x
      refine ⟨?_, le_trans (le_of_not_le h) hle, ?_⟩
      · rcases hmem with h' | h'
        · exact Or.inr (by rw [h']; exact List.mem_cons_self x xs)
        · exact Or.inr (List.mem_cons_of_mem _ h')
      · intro y hy
        rcases List.mem_cons.mp hy with rfl | hy'
        · exact hle
        · exact hall y hy'

/-- The result of `longestMatchingPrefix` is always a prefix of the full
URL, and is either the empty string or one of the candidates. -/
theorem longestMatchingPrefix_cases (K : List Str) (u : Str) :
    longestMatchingPrefix K u = [] ∨
      (longestMatchingPrefix K u ∈ K ∧ longestMatchingPrefix K u <+: u) := by
  unfold longestMatchingPrefix
  obtain ⟨hmem, -, -⟩ :=
    foldl_longest_spec (K.filter (fun urlPrefix => decide (urlPrefix <+: u))) []
  rcases hmem with h | h
  · exact Or.inl h
  · obtain ⟨hK, hpre⟩ := List.mem_filter.mp h
    exact Or.inr ⟨hK, of_decide_eq_true hpre⟩

/-- The result of `longestMatchingPrefix` is a prefix of the full URL. -/
theorem longestMatchingPrefix_matches (K : List Str) (u : Str) :
    longestMatchingPrefix K u <+: u := by
  rcases longestMatchingPrefix_cases K u with h | h
  · simp [h]
  · exact h.2

/-- Every candidate that matches is at most as long as the result of
`longestMatchingPrefix`. -/
theorem longestMatchingPrefix_max (K : List Str) (u : Str) :
    ∀ p ∈ K, p <+: u → p.length ≤ (longestMatchingPrefix K u).length := by
  intro p hK hpre
  unfold longestMatchingPrefix
  obtain ⟨-, -, hall⟩ :=
    foldl_longest_spec (K.filter (fun urlPrefix => decide (urlPrefix <+: u))) []
  exact hall p (List.mem_filter.mpr ⟨hK, decide_eq_true hpre⟩)

/-- `longestMatchingPrefix` returns the empty string exactly when every
matching candidate is itself empty. -/
theorem longestMatchingPrefix_eq_nil_iff (K : List Str) (u : Str) :
    longestMatchingPrefix K u = [] ↔ ∀ p ∈ K, p <+: u → p = [] := by
  constructor
  · intro hnil p hK hpre
    have := longestMatchingPrefix_max K u p hK hpre
    rw [hnil] at this
    simpa using List.length_eq_zero.mp (Nat.le_zero.mp this)
  · intro hall
    rcases longestMatchingPrefix_cases K u with h | h
    · exact h
    · exact hall _ h.1 h.2

/-- Two prefixes of the same list that share a length are equal. -/
theorem prefix_eq_of_length {p q u : Str} (hp : p <+: u) (hq : q <+: u)
    (hlen : p.length = q.length) : p = q := by
  rcases le_or_lt p.length q.length with h | h
  · exact (List.prefix_of_prefix_length_le hp hq h).eq_of_length hlen
  · exact ((List.prefix_of_prefix_length_le hq hp h.le).eq_of_length hlen.symm).symm

/-! ## Lemmas about `pickLongest` -/

/-- The indexed reduce of the cross-manifest search, characterised over an
arbitrary start index and accumulator: either every element is strictly
shorter than the accumulator (which then survives), or the result is the
element at the last index attaining the maximal length. -/
theorem pick_foldl_spec (l : List Str) (n : Nat) (acc : Str × Nat) :
    ((List.enumFrom n l).foldl
        (fun soFar ic => if ic.2.length ≥ soFar.1.length then (ic.2, ic.1) else soFar)
        acc = acc ∧
      ∀ j, j < l.length → (l.getD j []).length < acc.1.length) ∨
    (∃ j, j < l.length ∧
      (List.enumFrom n l).foldl
        (fun soFar ic => if ic.2.length ≥ soFar.1.length then (ic.2, ic.1) else soFar)
        acc = (l.getD j [], n + j) ∧
      acc.1.length ≤ (l.getD j []).length ∧
      (∀ i, i < l.length → (l.getD i []).length ≤ (l.getD j []).length) ∧
      (∀ i, j < i → i < l.length → (l.getD i []).length < (l.getD j []).length)) := by
  induction l generalizing n acc with
  | nil => exact Or.inl ⟨rfl, by simp⟩
  | cons x xs ih =>
    simp only [List.enumFrom, List.foldl_cons]
    by_cases hx : x.length ≥ acc.1.length
    · simp only [if_pos hx]
      rcases ih (n + 1) (x, n) with ⟨hr, hall⟩ | ⟨j, hj, hr, hacc, hmax, hstrict⟩
      · refine Or.inr ⟨0, by simp, ?_, ?_, ?_, ?_⟩
        · simpa using hr
        · simpa using hx
        · intro i hi
          cases i with
          | zero => simp
          | succ i' =>
            simp only [List.getD_cons_succ, List.getD_cons_zero]
            exact le_of_lt (hall i' (by simpa using hi))
        · intro i hpos hi
          cases i with
          | zero => omega
          | succ i' =>
            simp only [List.getD_cons_succ, List.getD_cons_zero]
            exact hall i' (by simpa using hi)
      · refine Or.inr ⟨j + 1, by simpa using hj, ?_, ?_, ?_, ?_⟩
        · rw [hr]
          simp only [List.getD_cons_succ]
          congr 1
          omega
        · simp only [List.getD_cons_succ]
          exact le_trans hx hacc
        · intro i hi
          cases i with
          | zero =>
            simp only [List.getD_cons_succ, List.getD_cons_zero]
            exact le_trans hacc (le_refl _)
          | succ i' =>
            simp only [List.getD_cons_succ]
            exact hmax i' (by simpa using hi)
        · intro i hgt hi
          cases i with
          | zero => omega
          | succ i' =>
            simp only [List.getD_cons_succ]
            exact hstrict i' (by omega) (by simpa using hi)
    · simp only [if_neg hx]
      have hxlt : x.length < acc.1.length := lt_of_not_le hx
      rcases ih (n + 1) acc with ⟨hr, hall⟩ | ⟨j, hj, hr, hacc, hmax, hstrict⟩
      · refine Or.inl ⟨hr, ?_⟩
        intro j hjlen
        cases j with
        | zero => simpa using hxlt
        | succ j' =>
          simp only [List.getD_cons_succ]
          exact hall j' (by simpa using hjlen)
      · refine Or.inr ⟨j + 1, by simpa using hj, ?_, ?_, ?_, ?_⟩
        · rw [hr]
          simp only [List.getD_cons_succ]
          congr 1
          omega
        · simp only [List.getD_cons_succ]
          exact hacc
        · intro i hi
          cases i with
          | zero =>
            simp only [List.getD_cons_succ, List.getD_cons_zero]
            exact le_trans (le_of_lt hxlt) hacc
          | succ i' =>
            simp only [List.getD_cons_succ]
            exact hmax i' (by simpa using hi)
        · intro i hgt hi
          cases i with
          | zero => omega
          | succ i' =>
            simp only [List.getD_cons_succ]
            exact hstrict i' (by omega) (by simpa using hi)

/-- For a nonempty input, `pickLongest` returns the element at the last
index attaining the maximal length, together with that index. -/
theorem pickLongest_spec (l : List Str) (hne : l ≠ []) :
    ∃ j, j < l.length ∧ pickLongest l = (l.getD j [], j) ∧
      (∀ i, i < l.length → (l.getD i []).length ≤ (l.getD j []).length) ∧
      (∀ i, j < i → i < l.length → (l.getD i []).length < (l.getD j []).length) := by
  have hlen : 0 < l.length := List.length_pos.mpr hne
  rcases pick_foldl_spec l 0 ([], 0) with ⟨-, hall⟩ | ⟨j, hj, hr, -, hmax, hstrict⟩
  · exact absurd (hall 0 hlen) (by simp)
  · refine ⟨j, hj, ?_, hmax, hstrict⟩
    have : List.enum l = List.enumFrom 0 l := rfl
    unfold pickLongest
    rw [this, hr]
    simp

/-! ## Store lemmas -/

/-- Reading back the key just written by `putStore`. -/
theorem lookupStore_putStore_self {β : Type} (l : List (Str × β)) (k : Str) (v : β) :
    lookupStore (putStore l k v) k = some v := by
  induction l with
  | nil => simp [putStore, lookupStore]
  | cons e rest ih =>
    by_cases h : e.1 = k
    · simp [putStore, lookupStore, h]
    · simp [putStore, lookupStore, h, ih]

/-- An in-range `getD` is a member of the list. -/
theorem getD_mem_of_lt {α : Type} [Inhabited α] (l : List α) (d : α) (i : Nat)
    (h : i < l.length) : l.getD i d ∈ l := by
  rw [List.getD_eq_getElem l d h]
  exact List.getElem_mem h

/-- Every member sits at some index retrievable through `getD`. -/
theorem mem_iff_getD {α : Type} (l : List α) (d : α) (x : α) (hx : x ∈ l) :
    ∃ i, i < l.length ∧ l.getD i d = x := by
  obtain ⟨i, hi, hget⟩ := List.mem_iff_getElem.mp hx
  exact ⟨i, hi, by rw [List.getD_eq_getElem l d hi]; exact hget⟩

/-- With every candidate nonempty, `longestMatchingPrefix` is nonempty
exactly when some candidate matches. -/
theorem longestMatchingPrefix_ne_nil_iff (K : List Str) (u : Str)
    (hK : ∀ k ∈ K, k ≠ []) :
    longestMatchingPrefix K u ≠ [] ↔ ∃ k ∈ K, k <+: u := by
  rw [Ne, longestMatchingPrefix_eq_nil_iff]
  constructor
  · intro h
    by_contra hno
    push_neg at hno
    exact h (fun p hp hpre => absurd hpre (hno p hp))
  · rintro ⟨k, hk, hpre⟩ hall
    exact hK k hk (hall k hk hpre)

/-! ## Claim theorems -/

/-- C2: `longestMatchingPrefix(K, u)` returns the element of `K` that is a
raw string prefix of `u` with maximum length; any matching candidate of that
maximal length is (as a string) equal to the result, so in particular the
last such candidate encountered is returned; and the empty string is
returned when no element of `K` is a prefix of `u`. -/
theorem appcache_C2 (K : List Str) (u : Str) :
    ((¬ ∃ p ∈ K, p <+: u) → longestMatchingPrefix K u = []) ∧
    ((∃ p ∈ K, p <+: u) →
      longestMatchingPrefix K u ∈ K ∧ longestMatchingPrefix K u <+: u ∧
      ∀ p ∈ K, p <+: u → p.length ≤ (longestMatchingPrefix K u).length) ∧
    (∀ p ∈ K, p <+: u → p.length = (longestMatchingPrefix K u).length →
      p = longestMatchingPrefix K u) := by
  refine ⟨?_, ?_, ?_⟩
  · intro hno
    rw [longestMatchingPrefix_eq_nil_iff]
    intro p hp hpre
    exact absurd ⟨p, hp, hpre⟩ hno
  · rintro ⟨p, hp, hpre⟩
    rcases longestMatchingPrefix_cases K u with hnil | ⟨hmem, hprefix⟩
    · refine ⟨?_, longestMatchingPrefix_matches K u, longestMatchingPrefix_max K u⟩
      have hall := (longestMatchingPrefix_eq_nil_iff K u).mp hnil
      have hp0 : p = [] := hall p hp hpre
      rw [hnil, ← hp0]
      exact hp
    · exact ⟨hmem, hprefix, longestMatchingPrefix_max K u⟩
  · intro p hp hpre hlen
    exact prefix_eq_of_length hpre (longestMatchingPrefix_matches K u) hlen

/-- Witness for C2 at a concrete candidate list and URL. -/
theorem appcache_C2_witness :
    longestMatchingPrefix [str "/x", str "/x/deeper"] (str "/x/deeper/q") ∈
        [str "/x", str "/x/deeper"] ∧
      longestMatchingPrefix [str "/x", str "/x/deeper"] (str "/x/deeper/q") <+:
        str "/x/deeper/q" ∧
      ∀ p ∈ [str "/x", str "/x/deeper"], p <+: str "/x/deeper/q" →
        p.length ≤ (longestMatchingPrefix [str "/x", str "/x/deeper"]
          (str "/x/deeper/q")).length :=
  (appcache_C2 [str "/x", str "/x/deeper"] (str "/x/deeper/q")).2.1
    ⟨str "/x", by decide, by decide⟩

/-- C6: a request carrying `X-Use-Fetch: true` is resolved to a plain
`fetch(event.request)` before any client resolution or store access: the
result is the same constant for every environment and every store state, and
the `CLIENT_ID_TO_HASH` store is left untouched. -/
theorem appcache_C6 (env : WorkerEnv) (state : WorkerState) (event : FetchEvent)
    (h : event.xUseFetch = some trueStr) :
    appCacheBehaviorForEvent env state event =
      (Decision.fetchRequest, state.clientIdToHash) := by
  simp [appCacheBehaviorForEvent, h]

/-- Witness for C6 at a concrete event. -/
theorem appcache_C6_witness :
    appCacheBehaviorForEvent ⟨false, fun _ => []⟩ ⟨[], [], []⟩
        ⟨str "https://s/a", some trueStr, none, []⟩ =
      (Decision.fetchRequest, []) :=
  appcache_C6 ⟨false, fun _ => []⟩ ⟨[], [], []⟩
    ⟨str "https://s/a", some trueStr, none, []⟩ rfl

/-- C4, counterexample to the propagation clause: when the live fetch
rejects and the cache has no entry for the fallback URL, `fetchWithFallback`
fulfills with the `cache.match` miss (`undefined`); it does not propagate
the original rejection. -/
theorem appcache_C4_counterexample :
    fetchWithFallback (Except.error (str "NetworkError")) []
        (str "https://s/offline.json") = FwfResult.fulfilledUndefined ∧
      FwfResult.fulfilledUndefined ≠
        FwfResult.rejected (str "NetworkError") := by
  exact ⟨rfl, by decide⟩

/-- C4 as amended: a fulfilled live fetch is returned unchanged regardless
of status; on rejection the cached response for the fallback URL is
returned; and on a cache miss the promise fulfills with the miss value
(`undefined`) instead of propagating the rejection. -/
theorem appcache_C4 (liveFetch : Except Str Response')
    (cache : List (Str × Response')) (fallbackUrl : Str) :
    (∀ r, liveFetch = Except.ok r →
      fetchWithFallback liveFetch cache fallbackUrl = FwfResult.fulfilled r) ∧
    (∀ e, liveFetch = Except.error e →
      (∀ r, lookupStore cache fallbackUrl = some r →
        fetchWithFallback liveFetch cache fallbackUrl = FwfResult.fulfilled r) ∧
      (lookupStore cache fallbackUrl = none →
        fetchWithFallback liveFetch cache fallbackUrl =
          FwfResult.fulfilledUndefined)) := by
  refine ⟨?_, ?_⟩
  · rintro r rfl
    rfl
  · rintro e rfl
    refine ⟨?_, ?_⟩
    · intro r hr
      simp [fetchWithFallback, hr]
    · intro hr
      simp [fetchWithFallback, hr]

/-- Witness for C4 at concrete inputs: a fulfilled fetch of any status is
passed through, and a rejected fetch with a cache hit serves the stored
response. -/
theorem appcache_C4_witness :
    fetchWithFallback (Except.ok ⟨503, none, str "down"⟩) [] (str "/fb") =
        FwfResult.fulfilled ⟨503, none, str "down"⟩ ∧
      fetchWithFallback (Except.error (str "offline"))
          [(str "/fb", ⟨200, none, str "cached"⟩)] (str "/fb") =
        FwfResult.fulfilled ⟨200, none, str "cached"⟩ :=
  ⟨(appcache_C4 (Except.ok ⟨503, none, str "down"⟩) [] (str "/fb")).1 _ rfl,
   ((appcache_C4 (Except.error (str "offline"))
      [(str "/fb", ⟨200, none, str "cached"⟩)] (str "/fb")).2 _ rfl).1 _ rfl⟩

/-- C10: a 2xx conditioning-fetch response with no `Cache-Control` header
makes the handler throw (`headers.get` is `null`, so `.indexOf` raises a
`TypeError`), the per-URL `catch` swallows it before `cache.put` is reached,
and the cache is left unchanged for that URL. -/
theorem appcache_C10 (r : Response') (h2xx : response_ok r = true)
    (hcc : r.cacheControl = none) :
    addToCacheResponseHandler r = Except.error () ∧
    addToCachePerUrl (Except.ok r) = CacheOp.noop ∧
    ∀ (cache : List (Str × Response')) (url : Str),
      applyCacheOp cache url (addToCachePerUrl (Except.ok r)) = cache := by
  have hstatus : 200 ≤ r.status ∧ r.status ≤ 299 := by
    simpa [response_ok, Bool.and_eq_true, decide_eq_true_iff] using h2xx
  have hnot : ¬ (r.status = 404 ∨ r.status = 410) := by omega
  have hhandler : addToCacheResponseHandler r = Except.error () := by
    rw [addToCacheResponseHandler, if_neg hnot, hcc]
  refine ⟨hhandler, ?_, ?_⟩
  · simp [addToCachePerUrl, hhandler]
  · intro cache url
    simp [addToCachePerUrl, hhandler, applyCacheOp]

/-- Witness for C10 at a concrete 200 response with the header absent. -/
theorem appcache_C10_witness :
    addToCacheResponseHandler ⟨200, none, str "body"⟩ = Except.error () ∧
      addToCachePerUrl (Except.ok ⟨200, none, str "body"⟩) = CacheOp.noop ∧
      ∀ (cache : List (Str × Response')) (url : Str),
        applyCacheOp cache url
          (addToCachePerUrl (Except.ok ⟨200, none, str "body"⟩)) = cache :=
  appcache_C10 ⟨200, none, str "body"⟩ (by decide) rfl

/-- C7, evaluated at the failing input: a 2xx (`ok`) response carrying no
`Cache-Control` header is not stored — `addToCache` leaves the cache empty —
although the claim requires every 2xx response to be stored as the entry for
its URL. -/
theorem appcache_C7 :
    addToCache (fun _ => Except.ok ⟨200, none, str "body"⟩)
        [str "https://s/a"] [] = [] ∧
      response_ok ⟨200, none, str "body"⟩ = true := by
  exact ⟨rfl, by decide⟩

/-- C9, evaluated at the failing input: with live client `A` and stale
client `B` both bound to hash `h`, and `h` an older-than-current hash of the
stored history, the sweep deletes the cache named `h` even though `A` is
alive and `CLIENT_ID_TO_HASH` still maps `A` to `h` after the sweep. -/
theorem appcache_C9 :
    (cleanupOldCaches
        { pathToManifest := [],
          manifestUrlToContents :=
            [(str "m", [⟨str "h", str "t1", ⟨[], [], []⟩⟩,
                        ⟨str "h2", str "t2", ⟨[], [], []⟩⟩])],
          clientIdToHash := [(str "A", str "h"), (str "B", str "h")] }
        [str "A"]).1 = [str "h"] ∧
    (cleanupOldCaches
        { pathToManifest := [],
          manifestUrlToContents :=
            [(str "m", [⟨str "h", str "t1", ⟨[], [], []⟩⟩,
                        ⟨str "h2", str "t2", ⟨[], [], []⟩⟩])],
          clientIdToHash := [(str "A", str "h"), (str "B", str "h")] }
        [str "A"]).2 = [(str "A", str "h")] := by
  exact ⟨rfl, rfl⟩

/-- `handlePossibleManifestUpdate` with a fresh text that differs from the
stored one: the `{text, parsed}` record is `put`, overwriting any previous
record for the manifest URL. -/
theorem handlePossibleManifestUpdate_of_ne (parse : Str → ParsedManifest)
    (store : List (Str × StoredManifest)) (url t : Str)
    (h : ¬ t = ((lookupStore store url).map (fun e => e.text)).getD []) :
    handlePossibleManifestUpdate parse store url t =
      putStore store url { text := t, parsed := parse t } := by
  simp [handlePossibleManifestUpdate, performManifestUpdate, h]

/-- `handlePossibleManifestUpdate` with a text equal to the stored one is a
no-op. -/
theorem handlePossibleManifestUpdate_of_eq (parse : Str → ParsedManifest)
    (store : List (Str × StoredManifest)) (url t : Str)
    (h : t = ((lookupStore store url).map (fun e => e.text)).getD []) :
    handlePossibleManifestUpdate parse store url t = store := by
  simp [handlePossibleManifestUpdate, h]

/-- Sequentially installing texts with distinct neighbours, the first of
which differs from the stored text, leaves exactly the last text's record
under the manifest URL. -/
theorem installSequentially_spec (parse : Str → ParsedManifest) :
    ∀ (texts : List Str) (store : List (Str × StoredManifest)) (url : Str),
      texts ≠ [] →
      List.Chain' (fun a b => ¬ a = b) texts →
      ¬ texts.headD [] = ((lookupStore store url).map (fun e => e.text)).getD [] →
      lookupStore (installSequentially parse store url texts) url =
        (texts.getLast?).map (fun t => { text := t, parsed := parse t }) := by
  intro texts
  induction texts with
  | nil => exact fun store url hne _ _ => absurd rfl hne
  | cons t rest ih =>
    intro store url _ hchain hfirst
    have hstep : handlePossibleManifestUpdate parse store url t =
        putStore store url { text := t, parsed := parse t } :=
      handlePossibleManifestUpdate_of_ne parse store url t (by simpa using hfirst)
    have hrun : installSequentially parse store url (t :: rest) =
        installSequentially parse
          (putStore store url { text := t, parsed := parse t }) url rest := by
      simp [installSequentially, hstep]
    cases rest with
    | nil =>
      rw [hrun]
      simp [installSequentially, lookupStore_putStore_self]
    | cons t2 rest2 =>
      obtain ⟨hne12, hchain2⟩ := List.chain'_cons.mp hchain
      have hlook : lookupStore
          (putStore store url { text := t, parsed := parse t }) url =
          some { text := t, parsed := parse t } :=
        lookupStore_putStore_self store url _
      have hfirst2 : ¬ (t2 :: rest2).headD [] =
          ((lookupStore (putStore store url { text := t, parsed := parse t })
            url).map (fun e => e.text)).getD [] := by
        rw [hlook]
        simpa using fun h => hne12 h.symm
      rw [hrun, ih (putStore store url { text := t, parsed := parse t }) url
        (List.cons_ne_nil t2 rest2) hchain2 hfirst2]
      rw [List.getLast?_cons_cons]

/-- C5 as amended: the Installer variant of `src/unnamed/part_000` keeps no
version history — after installing texts `T1 … Tk` (neighbouring texts
distinct, the first differing from the stored text), the value under the
manifest URL in `MANIFEST_URL_TO_CONTENTS` is the single record
`{text: Tk, parsed: parse(Tk)}`; and installing a text equal to the stored
current text leaves the store unchanged (the comparison is textual — this
variant computes no hash). -/
theorem appcache_C5 (parse : Str → ParsedManifest)
    (store : List (Str × StoredManifest)) (url : Str) (texts : List Str)
    (hne : texts ≠ [])
    (hchain : List.Chain' (fun a b => ¬ a = b) texts)
    (hfirst : ¬ texts.headD [] =
      ((lookupStore store url).map (fun e => e.text)).getD []) :
    lookupStore (installSequentially parse store url texts) url =
      (texts.getLast?).map (fun t => { text := t, parsed := parse t }) ∧
    ∀ (s : List (Str × StoredManifest)) (t : Str),
      t = ((lookupStore s url).map (fun e => e.text)).getD [] →
      handlePossibleManifestUpdate parse s url t = s :=
  ⟨installSequentially_spec parse texts store url hne hchain hfirst,
   fun s t h => handlePossibleManifestUpdate_of_eq parse s url t h⟩

/-- Witness for C5 at two concrete distinct texts. -/
theorem appcache_C5_witness :
    lookupStore (installSequentially (fun _ => ParsedManifest.mk [] [] []) []
        (str "m") [str "T1", str "T2"]) (str "m") =
      some { text := str "T2", parsed := ParsedManifest.mk [] [] [] } := by
  have h := appcache_C5 (fun _ => ParsedManifest.mk [] [] []) [] (str "m")
    [str "T1", str "T2"] (by decide)
    (List.chain'_cons.mpr ⟨by decide, List.chain'_singleton _⟩) (by decide)
  exact h.1.trans (by decide)

/-- C5, counterexample: installing the two distinct texts `T1` then `T2`
leaves a single overwritten record — not a two-entry history in arrival
order — and no trace of `T1` survives anywhere in the store. -/
theorem appcache_C5_counterexample :
    installSequentially (fun _ => ParsedManifest.mk [] [] []) [] (str "m")
        [str "T1", str "T2"] =
      [(str "m", { text := str "T2", parsed := ParsedManifest.mk [] [] [] })] ∧
    ¬ str "T1" = str "T2" ∧
    ∀ entry ∈ installSequentially (fun _ => ParsedManifest.mk [] [] []) []
        (str "m") [str "T1", str "T2"],
      ¬ entry.2.text = str "T1" := by
  refine ⟨by decide, by decide, by decide⟩

/-- C8 as amended: when a binding is present but no version carrying the
bound hash exists in the stored history, `getParsedManifest` fulfills with
`null`, reading `.cache` of it throws, the promise chain of
`appCacheBehaviorForEvent` rejects, and the top-level `legacyAppCacheBehavior`
wrapper converts the rejection into a plain live `fetch(request)` — it does
not run the cross-manifest fallback search of the no-binding case. -/
theorem appcache_C8 (env : WorkerEnv) (state : WorkerState) (event : FetchEvent)
    (binding : ManifestBinding)
    (hheader : ¬ event.xUseFetch = some trueStr)
    (hcu : ¬ getClientUrlForEvent env event = [])
    (hbind : lookupStore state.pathToManifest (getClientUrlForEvent env event) =
      some binding)
    (hpruned : getParsedManifest state.manifestUrlToContents binding.url
      binding.hash = none) :
    (appCacheBehaviorForEvent env state event).1 = Decision.reject ∧
    legacyAppCacheBehavior env state event = Decision.fetchRequest := by
  have h1 : (appCacheBehaviorForEvent env state event).1 = Decision.reject := by
    simp [appCacheBehaviorForEvent, hheader, hcu, hbind, hpruned]
  refine ⟨h1, ?_⟩
  unfold legacyAppCacheBehavior
  rw [h1]

/-- Witness for C8 at a concrete stale binding. -/
theorem appcache_C8_witness :
    (appCacheBehaviorForEvent ⟨false, fun _ => []⟩
        { pathToManifest := [(str "https://s/p", ⟨str "https://s/m", str "h"⟩)],
          manifestUrlToContents :=
            [(str "https://s/m", [⟨str "h2", str "t", ParsedManifest.mk [] [] []⟩])],
          clientIdToHash := [] }
        ⟨str "https://s/r", none, none, str "https://s/p"⟩).1 = Decision.reject ∧
      legacyAppCacheBehavior ⟨false, fun _ => []⟩
        { pathToManifest := [(str "https://s/p", ⟨str "https://s/m", str "h"⟩)],
          manifestUrlToContents :=
            [(str "https://s/m", [⟨str "h2", str "t", ParsedManifest.mk [] [] []⟩])],
          clientIdToHash := [] }
        ⟨str "https://s/r", none, none, str "https://s/p"⟩ = Decision.fetchRequest :=
  appcache_C8 ⟨false, fun _ => []⟩
    { pathToManifest := [(str "https://s/p", ⟨str "https://s/m", str "h"⟩)],
      manifestUrlToContents :=
        [(str "https://s/m", [⟨str "h2", str "t", ParsedManifest.mk [] [] []⟩])],
      clientIdToHash := [] }
    ⟨str "https://s/r", none, none, str "https://s/p"⟩
    ⟨str "https://s/m", str "h"⟩ (by decide) (by decide) (by decide) (by decide)

/-- C8, counterexample: with a stale binding whose hash was pruned, the code
rejects and the top-level wrapper live-fetches, while the no-binding Case B
search on the same state would delegate to the Fallback Broker — so the
request is not resolved "exactly as if no binding existed". -/
theorem appcache_C8_counterexample :
    (appCacheBehaviorForEvent ⟨false, fun _ => []⟩
        { pathToManifest := [(str "https://s/p", ⟨str "https://s/m", str "h"⟩)],
          manifestUrlToContents :=
            [(str "https://s/m",
              [⟨str "h2", str "t",
                ParsedManifest.mk [] [] [(str "https://s/r", str "https://s/fb")]⟩])],
          clientIdToHash := [] }
        ⟨str "https://s/r", none, none, str "https://s/p"⟩).1 = Decision.reject ∧
    legacyAppCacheBehavior ⟨false, fun _ => []⟩
        { pathToManifest := [(str "https://s/p", ⟨str "https://s/m", str "h"⟩)],
          manifestUrlToContents :=
            [(str "https://s/m",
              [⟨str "h2", str "t",
                ParsedManifest.mk [] [] [(str "https://s/r", str "https://s/fb")]⟩])],
          clientIdToHash := [] }
        ⟨str "https://s/r", none, none, str "https://s/p"⟩ = Decision.fetchRequest ∧
    crossManifestFallback
        [(str "https://s/m",
          [⟨str "h2", str "t",
            ParsedManifest.mk [] [] [(str "https://s/r", str "https://s/fb")]⟩])]
        (str "https://s/r") =
      Decision.fallbackFetch (str "https://s/fb") (str "h2") ∧
    ¬ Decision.fetchRequest = Decision.fallbackFetch (str "https://s/fb") (str "h2") ∧
    ¬ Decision.reject = Decision.fallbackFetch (str "https://s/fb") (str "h2") := by
  refine ⟨by decide, by decide, by decide, by decide, by decide⟩

/-- C1: with a binding whose version is found, the Rule Engine applies the
sections in the order CACHE (membership or `request.url === clientUrl`),
then FALLBACK (nonempty longest matching prefix), then NETWORK (membership
or the `*` wildcard), and returns the `Response.error()` sentinel exactly
when none of the three sections matches.  The fallback keys are absolute
URLs, hence nonempty, which the last hypothesis records. -/
theorem appcache_C1 (env : WorkerEnv) (state : WorkerState) (event : FetchEvent)
    (binding : ManifestBinding) (parsed : ParsedManifest)
    (hheader : ¬ event.xUseFetch = some trueStr)
    (hcu : ¬ getClientUrlForEvent env event = [])
    (hbind : lookupStore state.pathToManifest (getClientUrlForEvent env event) =
      some binding)
    (hman : getParsedManifest state.manifestUrlToContents binding.url
      binding.hash = some parsed)
    (hkeys : ∀ k ∈ parsed.fallback.map Prod.fst, ¬ k = []) :
    ((event.requestUrl ∈ parsed.cache ∨
        event.requestUrl = getClientUrlForEvent env event) →
      (appCacheBehaviorForEvent env state event).1 =
        Decision.cacheMatch binding.hash) ∧
    (¬ (event.requestUrl ∈ parsed.cache ∨
        event.requestUrl = getClientUrlForEvent env event) →
      (∃ k ∈ parsed.fallback.map Prod.fst, k <+: event.requestUrl) →
      (appCacheBehaviorForEvent env state event).1 =
        Decision.fallbackFetch
          ((lookupStore parsed.fallback
            (longestMatchingPrefix (parsed.fallback.map Prod.fst)
              event.requestUrl)).getD [])
          binding.hash) ∧
    (¬ (event.requestUrl ∈ parsed.cache ∨
        event.requestUrl = getClientUrlForEvent env event) →
      ¬ (∃ k ∈ parsed.fallback.map Prod.fst, k <+: event.requestUrl) →
      (event.requestUrl ∈ parsed.network ∨ starToken ∈ parsed.network) →
      (appCacheBehaviorForEvent env state event).1 = Decision.fetchRequest) ∧
    ((appCacheBehaviorForEvent env state event).1 = Decision.errorSentinel ↔
      ¬ (event.requestUrl ∈ parsed.cache ∨
        event.requestUrl = getClientUrlForEvent env event) ∧
      ¬ (∃ k ∈ parsed.fallback.map Prod.fst, k <+: event.requestUrl) ∧
      ¬ (event.requestUrl ∈ parsed.network ∨ starToken ∈ parsed.network)) := by
  have hkeyiff := longestMatchingPrefix_ne_nil_iff
    (parsed.fallback.map Prod.fst) event.requestUrl hkeys
  refine ⟨?_, ?_, ?_, ?_⟩
  · intro hc
    simp [appCacheBehaviorForEvent, hheader, hcu, hbind, hman, hc]
  · intro hc hf
    have hfkey : ¬ longestMatchingPrefix (parsed.fallback.map Prod.fst)
        event.requestUrl = [] := hkeyiff.mpr hf
    simp [appCacheBehaviorForEvent, hheader, hcu, hbind, hman, hc, hfkey]
  · intro hc hf hn
    have hfkey : longestMatchingPrefix (parsed.fallback.map Prod.fst)
        event.requestUrl = [] := by
      by_contra hne
      exact hf (hkeyiff.mp hne)
    simp [appCacheBehaviorForEvent, hheader, hcu, hbind, hman, hc, hfkey, hn]
  · constructor
    · intro herr
      by_cases hc : event.requestUrl ∈ parsed.cache ∨
          event.requestUrl = getClientUrlForEvent env event
      · simp [appCacheBehaviorForEvent, hheader, hcu, hbind, hman, hc] at herr
      · by_cases hf : ∃ k ∈ parsed.fallback.map Prod.fst, k <+: event.requestUrl
        · have hfkey : ¬ longestMatchingPrefix (parsed.fallback.map Prod.fst)
              event.requestUrl = [] := hkeyiff.mpr hf
          simp [appCacheBehaviorForEvent, hheader, hcu, hbind, hman, hc, hfkey]
            at herr
        · have hfkey : longestMatchingPrefix (parsed.fallback.map Prod.fst)
              event.requestUrl = [] := by
            by_contra hne
            exact hf (hkeyiff.mp hne)
          by_cases hn : event.requestUrl ∈ parsed.network ∨
              starToken ∈ parsed.network
          · simp [appCacheBehaviorForEvent, hheader, hcu, hbind, hman, hc,
              hfkey, hn] at herr
          · exact ⟨hc, hf, hn⟩
    · rintro ⟨hc, hf, hn⟩
      have hfkey : longestMatchingPrefix (parsed.fallback.map Prod.fst)
          event.requestUrl = [] := by
        by_contra hne
        exact hf (hkeyiff.mp hne)
      simp [appCacheBehaviorForEvent, hheader, hcu, hbind, hman, hc, hfkey, hn]

/-- Witness for C1 at a concrete CACHE hit. -/
theorem appcache_C1_witness :
    (appCacheBehaviorForEvent ⟨false, fun _ => []⟩
        { pathToManifest := [(str "https://s/p", ⟨str "https://s/m", str "h"⟩)],
          manifestUrlToContents :=
            [(str "https://s/m",
              [⟨str "h", str "t",
                ParsedManifest.mk [str "https://s/a"] []
                  [(str "https://s/api", str "https://s/fb")]⟩])],
          clientIdToHash := [] }
        ⟨str "https://s/a", none, none, str "https://s/p"⟩).1 =
      Decision.cacheMatch (str "h") :=
  (appcache_C1 ⟨false, fun _ => []⟩
    { pathToManifest := [(str "https://s/p", ⟨str "https://s/m", str "h"⟩)],
      manifestUrlToContents :=
        [(str "https://s/m",
          [⟨str "h", str "t",
            ParsedManifest.mk [str "https://s/a"] []
              [(str "https://s/api", str "https://s/fb")]⟩])],
      clientIdToHash := [] }
    ⟨str "https://s/a", none, none, str "https://s/p"⟩
    ⟨str "https://s/m", str "h"⟩
    (ParsedManifest.mk [str "https://s/a"] []
      [(str "https://s/api", str "https://s/fb")])
    (by decide) (by decide) (by decide) (by decide) (by decide)).1
    (Or.inl (by decide))

/-- The cross-manifest fallback search, characterised: with every stored
history nonempty, either no current version has a matching fallback prefix
and the decision is a plain fetch, or the winner is the manifest at the last
store-enumeration index attaining the greatest prefix length, and the
decision delegates to the Fallback Broker with that manifest's fallback
value and its current version's hash. -/
theorem crossManifestFallback_spec (contents : List (Str × List ManifestVersion))
    (r : Str) (hnonempty : ∀ entry ∈ contents, ¬ entry.2 = []) :
    ((∀ p ∈ (contents.map Prod.snd).map (fun manifestVersions =>
        longestMatchingPrefix
          ((currentVersion manifestVersions).parsed.fallback.map Prod.fst) r),
        p = []) →
      crossManifestFallback contents r = Decision.fetchRequest) ∧
    ((∃ p ∈ (contents.map Prod.snd).map (fun manifestVersions =>
        longestMatchingPrefix
          ((currentVersion manifestVersions).parsed.fallback.map Prod.fst) r),
        ¬ p = []) →
      ∃ j, j < contents.length ∧
        crossManifestFallback contents r =
          Decision.fallbackFetch
            ((lookupStore
              (currentVersion ((contents.map Prod.snd).getD j [])).parsed.fallback
              (((contents.map Prod.snd).map (fun manifestVersions =>
                longestMatchingPrefix
                  ((currentVersion manifestVersions).parsed.fallback.map Prod.fst)
                  r)).getD j [])).getD [])
            (currentVersion ((contents.map Prod.snd).getD j [])).hash ∧
        ¬ ((contents.map Prod.snd).map (fun manifestVersions =>
            longestMatchingPrefix
              ((currentVersion manifestVersions).parsed.fallback.map Prod.fst)
              r)).getD j [] = [] ∧
        (∀ i, i < ((contents.map Prod.snd).map (fun manifestVersions =>
            longestMatchingPrefix
              ((currentVersion manifestVersions).parsed.fallback.map Prod.fst)
              r)).length →
          (((contents.map Prod.snd).map (fun manifestVersions =>
            longestMatchingPrefix
              ((currentVersion manifestVersions).parsed.fallback.map Prod.fst)
              r)).getD i []).length ≤
          (((contents.map Prod.snd).map (fun manifestVersions =>
            longestMatchingPrefix
              ((currentVersion manifestVersions).parsed.fallback.map Prod.fst)
              r)).getD j []).length) ∧
        (∀ i, j < i → i < ((contents.map Prod.snd).map (fun manifestVersions =>
            longestMatchingPrefix
              ((currentVersion manifestVersions).parsed.fallback.map Prod.fst)
              r)).length →
          (((contents.map Prod.snd).map (fun manifestVersions =>
            longestMatchingPrefix
              ((currentVersion manifestVersions).parsed.fallback.map Prod.fst)
              r)).getD i []).length <
          (((contents.map Prod.snd).map (fun manifestVersions =>
            longestMatchingPrefix
              ((currentVersion manifestVersions).parsed.fallback.map Prod.fst)
              r)).getD j []).length)) := by
  have hnotany : ((contents.map Prod.snd).any
      (fun versions => versions.isEmpty)) = false := by
    rw [List.any_eq_false]
    intro v hv
    obtain ⟨entry, hentry, rfl⟩ := List.mem_map.mp hv
    simpa using hnonempty entry hentry
  have hnot : ¬ ((contents.map Prod.snd).any
      (fun versions => versions.isEmpty)) = true := by
    rw [hnotany]
    exact Bool.false_ne_true
  have hbody : crossManifestFallback contents r =
      (if ((contents.map Prod.snd).any (fun versions => versions.isEmpty)) = true
       then Decision.reject
       else if (pickLongest ((contents.map Prod.snd).map (fun manifestVersions =>
          longestMatchingPrefix
            ((currentVersion manifestVersions).parsed.fallback.map Prod.fst)
            r))).1 ≠ []
       then Decision.fallbackFetch
          ((lookupStore
            (currentVersion ((contents.map Prod.snd).getD
              (pickLongest ((contents.map Prod.snd).map (fun manifestVersions =>
                longestMatchingPrefix
                  ((currentVersion manifestVersions).parsed.fallback.map Prod.fst)
                  r))).2 [])).parsed.fallback
            (pickLongest ((contents.map Prod.snd).map (fun manifestVersions =>
              longestMatchingPrefix
                ((currentVersion manifestVersions).parsed.fallback.map Prod.fst)
                r))).1).getD [])
          (currentVersion ((contents.map Prod.snd).getD
            (pickLongest ((contents.map Prod.snd).map (fun manifestVersions =>
              longestMatchingPrefix
                ((currentVersion manifestVersions).parsed.fallback.map Prod.fst)
                r))).2 [])).hash
       else Decision.fetchRequest) := rfl
  refine ⟨?_, ?_⟩
  · intro hall
    have hpick : (pickLongest ((contents.map Prod.snd).map (fun manifestVersions =>
        longestMatchingPrefix
          ((currentVersion manifestVersions).parsed.fallback.map Prod.fst) r))).1
        = [] := by
      by_cases hLnil : (contents.map Prod.snd).map (fun manifestVersions =>
          longestMatchingPrefix
            ((currentVersion manifestVersions).parsed.fallback.map Prod.fst) r) = []
      · rw [hLnil]
        rfl
      · obtain ⟨j, hj, hp, -, -⟩ := pickLongest_spec _ hLnil
        rw [hp]
        exact hall _ (getD_mem_of_lt _ [] j hj)
    rw [hbody, if_neg hnot, hpick,
      if_neg (not_not_intro (rfl : ([] : Str) = []))]
  · rintro ⟨p, hp, hpne⟩
    have hLnil : (contents.map Prod.snd).map (fun manifestVersions =>
        longestMatchingPrefix
          ((currentVersion manifestVersions).parsed.fallback.map Prod.fst) r) ≠ [] :=
      List.ne_nil_of_mem hp
    obtain ⟨j, hj, hpick, hmax, hstrict⟩ := pickLongest_spec _ hLnil
    have hjne : ¬ ((contents.map Prod.snd).map (fun manifestVersions =>
        longestMatchingPrefix
          ((currentVersion manifestVersions).parsed.fallback.map Prod.fst)
          r)).getD j [] = [] := by
      obtain ⟨i, hi, hgd⟩ := mem_iff_getD _ [] p hp
      have hlen := hmax i hi
      rw [hgd] at hlen
      intro hnil
      rw [hnil] at hlen
      exact hpne (List.length_eq_zero.mp (Nat.le_zero.mp hlen))
    have hfst : (pickLongest ((contents.map Prod.snd).map (fun manifestVersions =>
        longestMatchingPrefix
          ((currentVersion manifestVersions).parsed.fallback.map Prod.fst) r))).1 =
        ((contents.map Prod.snd).map (fun manifestVersions =>
          longestMatchingPrefix
            ((currentVersion manifestVersions).parsed.fallback.map Prod.fst)
            r)).getD j [] := by
      rw [hpick]
    have hsnd : (pickLongest ((contents.map Prod.snd).map (fun manifestVersions =>
        longestMatchingPrefix
          ((currentVersion manifestVersions).parsed.fallback.map Prod.fst) r))).2 =
        j := by
      rw [hpick]
    refine ⟨j, ?_, ?_, hjne, hmax, hstrict⟩
    · simpa using hj
    · rw [hbody, if_neg hnot, hfst, hsnd, if_pos hjne]

/-- C3: with no binding for the client, the Rule Engine computes each stored
manifest's longest fallback-prefix match of its current (last) version
against the request URL; if some match is nonempty it delegates to the
Fallback Broker with the fallback value and current hash of the manifest at
the last store-enumeration index attaining the greatest match length
(later-wins tie-break), and otherwise it live-fetches the request. -/
theorem appcache_C3 (env : WorkerEnv) (state : WorkerState) (event : FetchEvent)
    (hheader : ¬ event.xUseFetch = some trueStr)
    (hcu : ¬ getClientUrlForEvent env event = [])
    (hnobind : lookupStore state.pathToManifest
      (getClientUrlForEvent env event) = none)
    (hnonempty : ∀ entry ∈ state.manifestUrlToContents, ¬ entry.2 = []) :
    ((∀ p ∈ (state.manifestUrlToContents.map Prod.snd).map
        (fun manifestVersions => longestMatchingPrefix
          ((currentVersion manifestVersions).parsed.fallback.map Prod.fst)
          event.requestUrl),
        p = []) →
      (appCacheBehaviorForEvent env state event).1 = Decision.fetchRequest) ∧
    ((∃ p ∈ (state.manifestUrlToContents.map Prod.snd).map
        (fun manifestVersions => longestMatchingPrefix
          ((currentVersion manifestVersions).parsed.fallback.map Prod.fst)
          event.requestUrl),
        ¬ p = []) →
      ∃ j, j < state.manifestUrlToContents.length ∧
        (appCacheBehaviorForEvent env state event).1 =
          Decision.fallbackFetch
            ((lookupStore
              (currentVersion
                ((state.manifestUrlToContents.map Prod.snd).getD j [])).parsed.fallback
              (((state.manifestUrlToContents.map Prod.snd).map
                (fun manifestVersions => longestMatchingPrefix
                  ((currentVersion manifestVersions).parsed.fallback.map Prod.fst)
                  event.requestUrl)).getD j [])).getD [])
            (currentVersion
              ((state.manifestUrlToContents.map Prod.snd).getD j [])).hash ∧
        ¬ ((state.manifestUrlToContents.map Prod.snd).map
            (fun manifestVersions => longestMatchingPrefix
              ((currentVersion manifestVersions).parsed.fallback.map Prod.fst)
              event.requestUrl)).getD j [] = [] ∧
        (∀ i, i < ((state.manifestUrlToContents.map Prod.snd).map
            (fun manifestVersions => longestMatchingPrefix
              ((currentVersion manifestVersions).parsed.fallback.map Prod.fst)
              event.requestUrl)).length →
          (((state.manifestUrlToContents.map Prod.snd).map
            (fun manifestVersions => longestMatchingPrefix
              ((currentVersion manifestVersions).parsed.fallback.map Prod.fst)
              event.requestUrl)).getD i []).length ≤
          (((state.manifestUrlToContents.map Prod.snd).map
            (fun manifestVersions => longestMatchingPrefix
              ((currentVersion manifestVersions).parsed.fallback.map Prod.fst)
              event.requestUrl)).getD j []).length) ∧
        (∀ i, j < i → i < ((state.manifestUrlToContents.map Prod.snd).map
            (fun manifestVersions => longestMatchingPrefix
              ((currentVersion manifestVersions).parsed.fallback.map Prod.fst)
              event.requestUrl)).length →
          (((state.manifestUrlToContents.map Prod.snd).map
            (fun manifestVersions => longestMatchingPrefix
              ((currentVersion manifestVersions).parsed.fallback.map Prod.fst)
              event.requestUrl)).getD i []).length <
          (((state.manifestUrlToContents.map Prod.snd).map
            (fun manifestVersions => longestMatchingPrefix
              ((currentVersion manifestVersions).parsed.fallback.map Prod.fst)
              event.requestUrl)).getD j []).length)) := by
  have hred : (appCacheBehaviorForEvent env state event).1 =
      crossManifestFallback state.manifestUrlToContents event.requestUrl := by
    simp [appCacheBehaviorForEvent, hheader, hcu, hnobind]
  rw [hred]
  exact crossManifestFallback_spec state.manifestUrlToContents event.requestUrl
    hnonempty

/-- Witness for C3 at a concrete state with no matching fallback prefix:
the decision is a plain live fetch. -/
theorem appcache_C3_witness :
    (appCacheBehaviorForEvent ⟨false, fun _ => []⟩
        { pathToManifest := [],
          manifestUrlToContents :=
            [(str "https://s/m",
              [⟨str "h", str "t",
                ParsedManifest.mk [] [] [(str "https://s/z", str "https://s/zf")]⟩])],
          clientIdToHash := [] }
        ⟨str "https://s/q", none, none, str "https://s/p"⟩).1 =
      Decision.fetchRequest :=
  (appcache_C3 ⟨false, fun _ => []⟩
    { pathToManifest := [],
      manifestUrlToContents :=
        [(str "https://s/m",
          [⟨str "h", str "t",
            ParsedManifest.mk [] [] [(str "https://s/z", str "https://s/zf")]⟩])],
      clientIdToHash := [] }
    ⟨str "https://s/q", none, none, str "https://s/p"⟩
    (by decide) (by decide) (by decide) (by decide)).1 (by decide)
